import Mathlib

/-!
# Verification of the vilio multimodal encoder specification

Shallow embedding of `entryX.py` and `src/vilio/modeling_bertU.py`:
the text/image embedding encoders, the joint gather-based aligner, the
checkpoint key renaming and shape reconciliation, the recursive
state-dict loading walk, and the BERT/RoBERTa preprocessing helpers.

Conventions:
* Python strings (checkpoint keys, tokens) are modelled as `List Char`.
* Tensors are modelled as (nested) lists over `ℚ`; torch floating point
  operations that have no exact rational counterpart (`sqrt` inside layer
  norm, `softmax`, `tanh`, activation functions) are model parameters,
  since every claim treated here is independent of their concrete values.
* Dropout layers are the identity (evaluation mode).
* `assert` statements become `Except.error` outcomes.
-/

set_option maxRecDepth 4000

namespace Vilio

/-- A Python string (checkpoint key or token), as a list of characters. -/
abbrev Key := List Char

/-- Embed a Lean string literal as a `Key`. -/
def strK (s : String) : Key := s.toList

/-- Python's `key.startswith(p)`: does `k` start with `p`? -/
def startsWithK : Key → Key → Bool
  | _, [] => true
  | [], _ :: _ => false
  | c :: cs, p :: ps => c == p && startsWithK cs ps

@[simp] theorem startsWithK_nil_pat (k : Key) : startsWithK k [] = true := by
  cases k <;> rfl

@[simp] theorem startsWithK_nil_cons (p : Char) (ps : Key) :
    startsWithK [] (p :: ps) = false := rfl

@[simp] theorem startsWithK_cons_cons (c p : Char) (cs ps : Key) :
    startsWithK (c :: cs) (p :: ps) = (c == p && startsWithK cs ps) := rfl

theorem startsWithK_iff_append {k p : Key} :
    startsWithK k p = true ↔ ∃ t, k = p ++ t := by
  induction p generalizing k with
  | nil => simp
  | cons x xs ih =>
    cases k with
    | nil => simp
    | cons c cs =>
      simp only [startsWithK_cons_cons, Bool.and_eq_true, beq_iff_eq, ih,
        List.cons_append, List.cons.injEq]
      constructor
      · rintro ⟨rfl, t, rfl⟩; exact ⟨t, rfl, rfl⟩
      · rintro ⟨t, rfl, rfl⟩; exact ⟨rfl, t, rfl⟩

theorem startsWithK_append (p t : Key) : startsWithK (p ++ t) p = true :=
  startsWithK_iff_append.mpr ⟨t, rfl⟩

theorem startsWithK_drop {k p : Key} (h : startsWithK k p = true) :
    p ++ k.drop p.length = k := by
  rcases startsWithK_iff_append.mp h with ⟨t, rfl⟩
  rw [List.drop_left]

theorem startsWithK_length_le {k p : Key} (h : startsWithK k p = true) :
    p.length ≤ k.length := by
  rcases startsWithK_iff_append.mp h with ⟨t, rfl⟩
  simp

/-- Python's `pat in key` (substring containment). -/
def containsSub : Key → Key → Bool
  | [], pat => startsWithK [] pat
  | c :: rest, pat => startsWithK (c :: rest) pat || containsSub rest pat

/-- Python's `key.replace(pat, rep)` (all occurrences, left to right,
non-overlapping), with an explicit structural fuel so that the function
reduces definitionally.  The fuel is always instantiated with the length
of the scanned string, which suffices since every step consumes at least
one character. -/
def replaceFuel (pat rep : Key) : ℕ → Key → Key
  | _, [] => []
  | 0, k => k
  | fuel + 1, c :: rest =>
    if pat ≠ [] ∧ startsWithK (c :: rest) pat = true then
      rep ++ replaceFuel pat rep fuel ((c :: rest).drop pat.length)
    else
      c :: replaceFuel pat rep fuel rest

/-- Python's `key.replace(pat, rep)`. -/
def replaceSub (pat rep k : Key) : Key := replaceFuel pat rep k.length k

/-- If the pattern does not occur in the string, `replace` is the identity
(for any sufficient fuel). -/
theorem replaceFuel_of_not_contains {pat : Key} (rep : Key) :
    ∀ (fuel : ℕ) (k : Key), containsSub k pat = false →
      replaceFuel pat rep fuel k = k := by
  intro fuel
  induction fuel with
  | zero => intro k _; cases k <;> rfl
  | succ n ih =>
    intro k hk
    cases k with
    | nil => rfl
    | cons c rest =>
      simp only [containsSub, Bool.or_eq_false_iff] at hk
      have hpat : ¬(pat ≠ [] ∧ startsWithK (c :: rest) pat = true) := by
        rintro ⟨-, hs⟩
        rw [hk.1] at hs
        exact Bool.false_ne_true hs
      rw [replaceFuel, if_neg hpat, ih rest hk.2]

theorem replaceSub_of_not_contains {pat : Key} (rep : Key) (k : Key)
    (h : containsSub k pat = false) : replaceSub pat rep k = k :=
  replaceFuel_of_not_contains rep k.length k h

/-! ## Preprocessing (`entryX.py`, `preprocess_bert` / `preprocess_roberta`)

The tokenizer is an external collaborator: it is modelled by a
`tokenize : String → List String` function and a per-token
`tokenToId : String → ℕ` map (HuggingFace's `convert_tokens_to_ids` maps a
token list elementwise).  `" ".join(str(sent).split())` is modelled by
`normalizeSent`.  The `assert` statements become `Except.error`.

`max_seq_len - 2` and the padding amount use truncated `ℕ` subtraction;
for `max_seq_len ≥ 2` this agrees exactly with the Python arithmetic, and
for smaller values both the Python code and this model fail the final
assertion, so the success cases coincide. -/

/-- `InputFeatures` from `entryX.py`. -/
structure InputFeatures where
  input_ids : List ℕ
  input_mask : List ℕ
  segment_ids : List ℕ
deriving DecidableEq, Repr

/-- `" ".join(str(sent).split())`: collapse whitespace runs. -/
def normalizeSent (s : String) : String :=
  " ".intercalate ((s.split Char.isWhitespace).filter (fun t => t ≠ ""))

/-- Sequential per-element `Except` map, mirroring the Python loop that
appends one `InputFeatures` per sentence and aborts on the first failed
assertion. -/
def mapExcept (f : α → Except String β) : List α → Except String (List β)
  | [] => .ok []
  | a :: as =>
    match f a, mapExcept f as with
    | .ok b, .ok bs => .ok (b :: bs)
    | .error e, _ => .error e
    | .ok _, .error e => .error e

/-- The three `assert len(...) == max_seq_len` statements closing both
preprocessing loops. -/
def assertLens (maxSeqLen : ℕ) (ids mask segs : List ℕ) : Except String InputFeatures :=
  if ids.length = maxSeqLen ∧ mask.length = maxSeqLen ∧ segs.length = maxSeqLen then
    .ok ⟨ids, mask, segs⟩
  else
    .error "AssertionError"

theorem assertLens_ok_lengths {maxSeqLen : ℕ} {ids mask segs : List ℕ}
    {f : InputFeatures} (h : assertLens maxSeqLen ids mask segs = .ok f) :
    f.input_ids.length = maxSeqLen ∧ f.input_mask.length = maxSeqLen ∧
      f.segment_ids.length = maxSeqLen := by
  unfold assertLens at h
  split at h
  · cases h
    assumption
  · cases h

/-- Body of the `preprocess_bert` loop for a single sentence. -/
def preprocessBertOne (tokenize : String → List String) (tokenToId : String → ℕ)
    (maxSeqLen : ℕ) (sent : String) : Except String InputFeatures :=
  let sent := normalizeSent sent
  let tokens := tokenize sent
  let tokens := if tokens.length > maxSeqLen - 2 then tokens.take (maxSeqLen - 2) else tokens
  let input_ids := (["[CLS]"] ++ tokens ++ ["[SEP]"]).map tokenToId
  let segment_ids := List.replicate input_ids.length 0
  let input_mask := List.replicate input_ids.length 1
  let padding := List.replicate (maxSeqLen - input_ids.length) 0
  let input_ids := input_ids ++ padding
  let input_mask := input_mask ++ padding
  let segment_ids := segment_ids ++ padding
  assertLens maxSeqLen input_ids input_mask segment_ids

/-- `preprocess_bert` from `entryX.py`. -/
def preprocessBert (tokenize : String → List String) (tokenToId : String → ℕ)
    (sents : List String) (maxSeqLen : ℕ) : Except String (List InputFeatures) :=
  mapExcept (preprocessBertOne tokenize tokenToId maxSeqLen) sents

/-- Body of the `preprocess_roberta` loop for a single sentence: a single
leading space is prepended, ids are wrapped with start id 0 and end id 2,
and padding uses id 1 with mask 0. -/
def preprocessRobertaOne (tokenize : String → List String) (tokenToId : String → ℕ)
    (maxSeqLen : ℕ) (sent : String) : Except String InputFeatures :=
  let sent := " " ++ normalizeSent sent
  let tokens := tokenize sent
  let tokens := if tokens.length > maxSeqLen - 2 then tokens.take (maxSeqLen - 2) else tokens
  let input_ids := [0] ++ tokens.map tokenToId ++ [2]
  let segment_ids := List.replicate input_ids.length 0
  let input_mask := List.replicate input_ids.length 1
  let paddingLength := maxSeqLen - input_ids.length
  let input_ids := if paddingLength > 0 then input_ids ++ List.replicate paddingLength 1 else input_ids
  let input_mask := if paddingLength > 0 then input_mask ++ List.replicate paddingLength 0 else input_mask
  let segment_ids := if paddingLength > 0 then segment_ids ++ List.replicate paddingLength 0 else segment_ids
  assertLens maxSeqLen input_ids input_mask segment_ids

/-- `preprocess_roberta` from `entryX.py`. -/
def preprocessRoberta (tokenize : String → List String) (tokenToId : String → ℕ)
    (sents : List String) (maxSeqLen : ℕ) : Except String (List InputFeatures) :=
  mapExcept (preprocessRobertaOne tokenize tokenToId maxSeqLen) sents

theorem mapExcept_ok_forall {f : α → Except String β} {l : List α} {bs : List β}
    (h : mapExcept f l = .ok bs) :
    ∀ b ∈ bs, ∃ a ∈ l, f a = .ok b := by
  induction l generalizing bs with
  | nil =>
    simp only [mapExcept] at h
    cases h
    simp
  | cons a as ih =>
    simp only [mapExcept] at h
    cases hfa : f a with
    | error e => rw [hfa] at h; cases h
    | ok b0 =>
      rw [hfa] at h
      cases hrest : mapExcept f as with
      | error e => rw [hrest] at h; cases h
      | ok bs0 =>
        rw [hrest] at h
        cases h
        intro b hb
        rcases List.mem_cons.mp hb with rfl | hb
        · exact ⟨a, List.mem_cons_self a as, hfa⟩
        · rcases ih hrest b hb with ⟨a', ha', hfa'⟩
          exact ⟨a', List.mem_cons_of_mem a ha', hfa'⟩

theorem preprocessBertOne_ok_lengths {tokenize : String → List String}
    {tokenToId : String → ℕ} {maxSeqLen : ℕ} {sent : String} {f : InputFeatures}
    (h : preprocessBertOne tokenize tokenToId maxSeqLen sent = .ok f) :
    f.input_ids.length = maxSeqLen ∧ f.input_mask.length = maxSeqLen ∧
      f.segment_ids.length = maxSeqLen := by
  simp only [preprocessBertOne] at h
  exact assertLens_ok_lengths h

theorem preprocessRobertaOne_ok_lengths {tokenize : String → List String}
    {tokenToId : String → ℕ} {maxSeqLen : ℕ} {sent : String} {f : InputFeatures}
    (h : preprocessRobertaOne tokenize tokenToId maxSeqLen sent = .ok f) :
    f.input_ids.length = maxSeqLen ∧ f.input_mask.length = maxSeqLen ∧
      f.segment_ids.length = maxSeqLen := by
  simp only [preprocessRobertaOne] at h
  exact assertLens_ok_lengths h

/-! ## Checkpoint key renaming

`ModelX.load` (`entryX.py`) strips known wrapper markers from the front of
every checkpoint key; `UniterPreTrainedModel.from_pretrained`
(`modeling_bertU.py`) runs the legacy renaming loop
(`gamma → weight`, `beta → bias`, `uniter. → ` removal), where each
candidate rename is recomputed from the original key and overwrites the
previous candidate. -/

/-- The known wrapper markers handled by `ModelX.load`. -/
def wrapperHeads : List Key :=
  [strK "module.", strK "model.", strK "roberta.", strK "albert."]

/-- The key normalisation of `ModelX.load`: the first matching wrapper
marker is removed from the front of the key (drop counts `7, 6, 8, 7`
mirror `len("module.")`, the literal `6`, `8` and `7` in the source). -/
def stripLoadKey (k : Key) : Key :=
  if startsWithK k (strK "module.") then k.drop 7
  else if startsWithK k (strK "model.") then k.drop 6
  else if startsWithK k (strK "roberta.") then k.drop 8
  else if startsWithK k (strK "albert.") then k.drop 7
  else k

/-- The renaming loop body of `UniterPreTrainedModel.from_pretrained`:
`new_key` starts as `None`, and each of the three patterns, tested against
the ORIGINAL key, unconditionally overwrites it on a match. -/
def renameUniterKey (k : Key) : Option Key :=
  let newKey : Option Key := none
  let newKey := if containsSub k (strK "gamma") then
    some (replaceSub (strK "gamma") (strK "weight") k) else newKey
  let newKey := if containsSub k (strK "beta") then
    some (replaceSub (strK "beta") (strK "bias") k) else newKey
  let newKey := if containsSub k (strK "uniter.") then
    some (replaceSub (strK "uniter.") [] k) else newKey
  newKey

theorem drop_length_append (p t : Key) (n : ℕ) (hn : p.length = n) :
    (p ++ t).drop n = t := by
  subst hn
  exact List.drop_left p t

theorem stripLoadKey_module (t : Key) : stripLoadKey (strK "module." ++ t) = t := by
  unfold stripLoadKey
  rw [if_pos (startsWithK_append (strK "module.") t)]
  exact drop_length_append _ _ _ rfl

theorem stripLoadKey_model (t : Key) : stripLoadKey (strK "model." ++ t) = t := by
  unfold stripLoadKey
  rw [if_neg (by simp [show startsWithK (strK "model." ++ t) (strK "module.") = false from rfl]),
    if_pos (startsWithK_append (strK "model.") t)]
  exact drop_length_append _ _ _ rfl

theorem stripLoadKey_roberta (t : Key) : stripLoadKey (strK "roberta." ++ t) = t := by
  unfold stripLoadKey
  rw [if_neg (by simp [show startsWithK (strK "roberta." ++ t) (strK "module.") = false from rfl]),
    if_neg (by simp [show startsWithK (strK "roberta." ++ t) (strK "model.") = false from rfl]),
    if_pos (startsWithK_append (strK "roberta.") t)]
  exact drop_length_append _ _ _ rfl

theorem stripLoadKey_albert (t : Key) : stripLoadKey (strK "albert." ++ t) = t := by
  unfold stripLoadKey
  rw [if_neg (by simp [show startsWithK (strK "albert." ++ t) (strK "module.") = false from rfl]),
    if_neg (by simp [show startsWithK (strK "albert." ++ t) (strK "model.") = false from rfl]),
    if_neg (by simp [show startsWithK (strK "albert." ++ t) (strK "roberta.") = false from rfl]),
    if_pos (startsWithK_append (strK "albert.") t)]
  exact drop_length_append _ _ _ rfl

/-- C5: key renaming algebra.  For every key starting with a known wrapper
marker (`module.`, `model.`, `roberta.`, `albert.`), stripping that marker
and re-prepending it reconstructs the original key; and the legacy rename
`gamma → weight` is idempotent: applied to a key containing no `gamma` it
is a no-op. -/
theorem claim_C5_key_renaming_algebra (p k : Key) :
    (p ∈ wrapperHeads → startsWithK k p = true → p ++ stripLoadKey k = k) ∧
    (containsSub k (strK "gamma") = false →
      replaceSub (strK "gamma") (strK "weight") k = k) := by
  constructor
  · intro hp hs
    simp only [wrapperHeads, List.mem_cons, List.not_mem_nil, or_false] at hp
    rcases startsWithK_iff_append.mp hs with ⟨t, rfl⟩
    rcases hp with rfl | rfl | rfl | rfl
    · rw [stripLoadKey_module]
    · rw [stripLoadKey_model]
    · rw [stripLoadKey_roberta]
    · rw [stripLoadKey_albert]
  · intro hng
    exact replaceSub_of_not_contains _ k hng

theorem claim_C5_witness :
    strK "module." ++ stripLoadKey (strK "module.fc.weight") = strK "module.fc.weight" ∧
    replaceSub (strK "gamma") (strK "weight") (strK "module.fc.weight") = strK "module.fc.weight" :=
  ⟨(claim_C5_key_renaming_algebra (strK "module.") (strK "module.fc.weight")).1
      (by decide) (by decide),
    (claim_C5_key_renaming_algebra (strK "module.") (strK "module.fc.weight")).2 (by decide)⟩

/-- C9: in the legacy renaming loop each candidate rename is recomputed
from the original unmodified key and overwrites the previous candidate,
so for every key the last matching pattern among `gamma`, `beta`,
`uniter.` alone takes effect, as a single replacement computed from the
original key: a key containing `uniter.` gets exactly the `uniter.`
removal (a simultaneous `gamma` or `beta` is never renamed); a key
containing `beta` but not `uniter.` gets exactly `beta → bias` (a
simultaneous `gamma` is never renamed); a key whose only match is
`gamma` gets `gamma → weight`. -/
theorem claim_C9_last_match_wins (k : Key) :
    (containsSub k (strK "uniter.") = true →
      renameUniterKey k = some (replaceSub (strK "uniter.") [] k)) ∧
    (containsSub k (strK "uniter.") = false →
      containsSub k (strK "beta") = true →
      renameUniterKey k = some (replaceSub (strK "beta") (strK "bias") k)) ∧
    (containsSub k (strK "uniter.") = false →
      containsSub k (strK "beta") = false →
      containsSub k (strK "gamma") = true →
      renameUniterKey k = some (replaceSub (strK "gamma") (strK "weight") k)) := by
  refine ⟨fun hu => ?_, fun hu hb => ?_, fun hu hb hg => ?_⟩
  · simp only [renameUniterKey, hu, if_true]
  · simp only [renameUniterKey, hu, hb, if_true, Bool.false_eq_true, if_false]
  · simp only [renameUniterKey, hu, hb, hg, if_true, Bool.false_eq_true, if_false]

theorem claim_C9_witness :
    renameUniterKey (strK "uniter.ln.gamma") = some (strK "ln.gamma") ∧
    containsSub (strK "ln.gamma") (strK "gamma") = true ∧
    renameUniterKey (strK "ln.beta.gamma") = some (strK "ln.bias.gamma") ∧
    containsSub (strK "ln.bias.gamma") (strK "gamma") = true := by
  refine ⟨?_, by decide, ?_, by decide⟩
  · rw [(claim_C9_last_match_wins (strK "uniter.ln.gamma")).1 (by decide)]
    decide
  · rw [(claim_C9_last_match_wins (strK "ln.beta.gamma")).2.1 (by decide) (by decide)]
    decide

/-- C8: padding invariant.  Whenever preprocessing (BERT-style or
RoBERTa-style) returns features, every example's `input_ids`,
`input_mask` and `segment_ids` all have length exactly `max_seq_len`. -/
theorem claim_C8_padding_invariant (tokenize : String → List String)
    (tokenToId : String → ℕ) (sents : List String) (maxSeqLen : ℕ)
    (fsB fsR : List InputFeatures) :
    (preprocessBert tokenize tokenToId sents maxSeqLen = .ok fsB →
      ∀ f ∈ fsB, f.input_ids.length = maxSeqLen ∧
        f.input_mask.length = maxSeqLen ∧ f.segment_ids.length = maxSeqLen) ∧
    (preprocessRoberta tokenize tokenToId sents maxSeqLen = .ok fsR →
      ∀ f ∈ fsR, f.input_ids.length = maxSeqLen ∧
        f.input_mask.length = maxSeqLen ∧ f.segment_ids.length = maxSeqLen) := by
  constructor
  · intro h f hf
    rcases mapExcept_ok_forall h f hf with ⟨s, _, hs⟩
    exact preprocessBertOne_ok_lengths hs
  · intro h f hf
    rcases mapExcept_ok_forall h f hf with ⟨s, _, hs⟩
    exact preprocessRobertaOne_ok_lengths hs

theorem claim_C8_witness :
    (InputFeatures.mk [5, 5, 5, 0] [1, 1, 1, 0] [0, 0, 0, 0]).input_ids.length = 4 ∧
    (InputFeatures.mk [5, 5, 5, 0] [1, 1, 1, 0] [0, 0, 0, 0]).input_mask.length = 4 ∧
    (InputFeatures.mk [5, 5, 5, 0] [1, 1, 1, 0] [0, 0, 0, 0]).segment_ids.length = 4 :=
  (claim_C8_padding_invariant (fun _ => ["t"]) (fun _ => 5) ["x"] 4
      [InputFeatures.mk [5, 5, 5, 0] [1, 1, 1, 0] [0, 0, 0, 0]]
      [InputFeatures.mk [0, 5, 2, 1] [1, 1, 1, 0] [0, 0, 0, 0]]).1
    rfl _ (by decide)

/-! ## Shape reconciliation (`from_pretrained`, lines 383-388)

`state_dict["img_embeddings.pos_linear.weight"] =
 state_dict["img_embeddings.pos_linear.weight"][:, :4]` — performed
whenever the key is present, independently of the configured
`args.num_pos`.  The target width expected by
`UniterImageEmbeddings.__init__` is 7 when `args.num_pos == 6` and 4
otherwise.  A checkpoint tensor is modelled as a rational matrix (the
sliced axis is the column axis). -/

/-- A 2-D checkpoint tensor. -/
abbrev Mat := List (List ℚ)

/-- Python dict lookup on an association list. -/
def lookupK {β : Type _} (k : Key) : List (Key × β) → Option β
  | [] => none
  | (a, b) :: rest => if a = k then some b else lookupK k rest

theorem lookupK_some_mem_fst {β : Type _} {k : Key} {sd : List (Key × β)} {v : β}
    (h : lookupK k sd = some v) : k ∈ sd.map Prod.fst := by
  induction sd with
  | nil => cases h
  | cons kv rest ih =>
    obtain ⟨a, b⟩ := kv
    by_cases hak : a = k
    · subst hak
      exact List.mem_cons_self _ _
    · rw [lookupK, if_neg hak] at h
      exact List.mem_cons_of_mem _ (ih h)

/-- `tensor[:, :4]` on a 2-D tensor. -/
def sliceColsTo4 (t : Mat) : Mat := t.map (fun row => row.take 4)

/-- `"img_embeddings.pos_linear.weight"`. -/
def posLinearKey : Key := strK "img_embeddings.pos_linear.weight"

/-- The reconciliation step of `from_pretrained`: if the key is present,
its tensor is replaced by its `[:, :4]` slice (a dict update keeps every
other entry unchanged). -/
def reconcilePosLinear (sd : List (Key × Mat)) : List (Key × Mat) :=
  if (lookupK posLinearKey sd).isSome then
    sd.map (fun kv => if kv.1 = posLinearKey then (kv.1, sliceColsTo4 kv.2) else kv)
  else sd

/-- `UniterImageEmbeddings.__init__`: the input width of `pos_linear` is 7
when `args.num_pos == 6`, else 4. -/
def expectedPosWidth (numPos : ℕ) : ℕ := if numPos = 6 then 7 else 4

theorem lookupK_map_update {β : Type _} (tgt : Key) (f : β → β) (k : Key)
    (sd : List (Key × β)) :
    lookupK k (sd.map (fun kv => if kv.1 = tgt then (kv.1, f kv.2) else kv)) =
      if k = tgt then (lookupK k sd).map f else lookupK k sd := by
  induction sd with
  | nil => by_cases h : k = tgt <;> simp [lookupK, h]
  | cons kv rest ih =>
    obtain ⟨a, b⟩ := kv
    simp only [List.map_cons]
    by_cases hat : a = tgt
    · rw [if_pos hat]
      by_cases hak : a = k
      · subst hak
        rw [lookupK, if_pos rfl, if_pos hat, lookupK, if_pos rfl]
        rfl
      · simp only [lookupK, if_neg hak]
        exact ih
    · rw [if_neg hat]
      by_cases hak : a = k
      · subst hak
        rw [lookupK, if_pos rfl, if_neg hat, lookupK, if_pos rfl]
      · simp only [lookupK, if_neg hak]
        exact ih

/-- C2 (amended): in configurations where the target expects width 4
(`args.num_pos ≠ 6`), a `pos_linear` source tensor whose uniform column
width `W` exceeds the expected width is reconciled to a tensor of column
width exactly 4, each row being a prefix slice of the original row; and
reconciliation never pads: every reconciled tensor's rows are at most as
wide as the corresponding source rows, for every key. -/
theorem claim_C2_truncation_bound (sd : List (Key × Mat)) (t : Mat)
    (numPos W : ℕ) (hnp : numPos ≠ 6)
    (ht : lookupK posLinearKey sd = some t)
    (hW : ∀ row ∈ t, row.length = W)
    (hgt : expectedPosWidth numPos < W) :
    ∃ t2, lookupK posLinearKey (reconcilePosLinear sd) = some t2 ∧
      t2 = sliceColsTo4 t ∧
      (∀ row ∈ t2, row.length = expectedPosWidth numPos) ∧
      (∀ row ∈ t, ∃ rest, row = row.take 4 ++ rest) ∧
      (∀ (k : Key) (u : Mat), lookupK k (reconcilePosLinear sd) = some u →
        ∃ v, lookupK k sd = some v ∧
          ∀ i, (u.getD i []).length ≤ (v.getD i []).length) := by
  have hw4 : expectedPosWidth numPos = 4 := by
    unfold expectedPosWidth
    rw [if_neg hnp]
  have hrec : ∀ (k : Key), lookupK k (reconcilePosLinear sd) =
      if k = posLinearKey then (lookupK k sd).map sliceColsTo4 else lookupK k sd := by
    intro k
    unfold reconcilePosLinear
    rw [if_pos (by rw [ht]; rfl)]
    exact lookupK_map_update posLinearKey sliceColsTo4 k sd
  refine ⟨sliceColsTo4 t, ?_, rfl, ?_, ?_, ?_⟩
  · rw [hrec, if_pos rfl, ht]
    rfl
  · intro row hrow
    rcases List.mem_map.mp hrow with ⟨r, hr, rfl⟩
    have : r.length = W := hW r hr
    rw [hw4] at hgt
    rw [hw4, List.length_take, this]
    omega
  · intro row hrow
    exact ⟨row.drop 4, (List.take_append_drop 4 row).symm⟩
  · intro k u hu
    rw [hrec] at hu
    by_cases hk : k = posLinearKey
    · rw [if_pos hk] at hu
      cases hv : lookupK k sd with
      | none => rw [hv] at hu; cases hu
      | some v =>
        rw [hv] at hu
        refine ⟨v, rfl, ?_⟩
        cases hu
        intro i
        by_cases hi : i < v.length
        · rw [List.getD_eq_getElem _ _ (by simpa [sliceColsTo4] using hi),
            List.getD_eq_getElem _ _ hi]
          simp only [sliceColsTo4, List.getElem_map, List.length_take]
          omega
        · rw [List.getD_eq_default _ _ (by simpa [sliceColsTo4] using Nat.le_of_not_lt hi)]
          exact Nat.zero_le _
    · rw [if_neg hk] at hu
      exact ⟨u, hu, fun i => Nat.le_refl _⟩

theorem claim_C2_witness :
    ∃ t2, lookupK posLinearKey
        (reconcilePosLinear [(posLinearKey, [[0, 1, 2, 3, 4, 5, 6]])]) = some t2 ∧
      t2 = sliceColsTo4 [[0, 1, 2, 3, 4, 5, 6]] ∧
      (∀ row ∈ t2, row.length = expectedPosWidth 0) ∧
      (∀ row ∈ [[(0 : ℚ), 1, 2, 3, 4, 5, 6]], ∃ rest, row = row.take 4 ++ rest) ∧
      (∀ (k : Key) (u : Mat),
        lookupK k (reconcilePosLinear [(posLinearKey, [[0, 1, 2, 3, 4, 5, 6]])]) = some u →
        ∃ v, lookupK k [(posLinearKey, [[(0 : ℚ), 1, 2, 3, 4, 5, 6]])] = some v ∧
          ∀ i, (u.getD i []).length ≤ (v.getD i []).length) :=
  claim_C2_truncation_bound [(posLinearKey, [[0, 1, 2, 3, 4, 5, 6]])]
    [[0, 1, 2, 3, 4, 5, 6]] 0 7 (by decide) rfl (by decide) (by decide)

/-- C2 (counterexample to the claim as stated): with `args.num_pos == 6`
the target expects width 7, but a `pos_linear` source tensor of width
8 > 7 is reconciled to width 4, not 7 — the slice is hard-coded to
`[:, :4]` and ignores the configured target width. -/
theorem claim_C2_counterexample :
    (∀ row ∈ [[(0 : ℚ), 1, 2, 3, 4, 5, 6, 7]], row.length = 8) ∧
    expectedPosWidth 6 < 8 ∧
    lookupK posLinearKey
        (reconcilePosLinear [(posLinearKey, [[0, 1, 2, 3, 4, 5, 6, 7]])]) =
      some [[(0 : ℚ), 1, 2, 3]] ∧
    (∀ row ∈ [[(0 : ℚ), 1, 2, 3]], row.length ≠ expectedPosWidth 6) := by
  refine ⟨by decide, by decide, ?_, by decide⟩
  rfl

/-! ## Recursive assignment walk (`from_pretrained`, lines 390-429)

The `load(module, prefix)` closure walks the target module tree
depth-first; at each node it calls torch's
`Module._load_from_state_dict(state_dict, prefix, …, strict=True,
missing_keys, unexpected_keys, error_msgs)` and then recurses into the
children in order.  torch (an external library) behaves as follows for
each node, and is modelled accordingly:

* for every local parameter/persistent buffer `name` with expected shape
  `shp`: if `prefix + name` is in the state dict, a tensor of equal shape
  is copied into the parameter (`populated` below) and one of unequal
  shape appends a size-mismatch message to `error_msgs` (`errors` below
  records the offending key; the message text is immaterial); if the key
  is absent, `prefix + name` is appended to `missing_keys`;
* strict scan: every state-dict key starting with `prefix` whose next
  dotted component is neither a child module name nor a local
  parameter name is appended to `unexpected_keys`.

The walk is modelled by enumerating the visited nodes in depth-first
pre-order (`walkNodes`) and collecting each of the four per-category
lists over that enumeration; this preserves exactly which keys are
recorded where.  `populated` instruments which target keys are actually
copied from the source.  After the walk, `from_pretrained` raises iff
`error_msgs` is non-empty, and otherwise returns the model (missing and
unexpected keys are only logged). -/

/-- A tensor shape. -/
abbrev Shape := List ℕ

/-- A checkpoint: parameter key → tensor shape. -/
abbrev StateDict := List (Key × Shape)

mutual
/-- A target module: local parameters (with persistent buffers) and named
child modules. -/
inductive ModuleTree : Type where
  | mk : List (Key × Shape) → ModuleForest → ModuleTree

/-- The ordered children of a module. -/
inductive ModuleForest : Type where
  | nil : ModuleForest
  | cons : Key → ModuleTree → ModuleForest → ModuleForest
end

/-- Names of a module's children (`self._modules`). -/
def ModuleForest.names : ModuleForest → List Key
  | .nil => []
  | .cons n _ rest => n :: rest.names

/-- One visited node of the walk: its accumulated key path, its local
parameters and its child names. -/
structure WalkNode where
  pfx : Key
  params : List (Key × Shape)
  childNames : List Key
deriving DecidableEq, Repr

mutual
/-- Depth-first pre-order enumeration of the walk, with prefixes built as
`prefix + name + "."` exactly as in the `load` closure. -/
def walkNodes : ModuleTree → Key → List WalkNode
  | .mk ps cs, pfx => ⟨pfx, ps, cs.names⟩ :: walkForest cs pfx

def walkForest : ModuleForest → Key → List WalkNode
  | .nil, _ => []
  | .cons n c rest, pfx => walkNodes c (pfx ++ n ++ strK ".") ++ walkForest rest pfx
end

/-- Python's `key.split('.', 1)[0]`. -/
def takeUntilDot (k : Key) : Key := k.takeWhile (fun c => c != '.')

/-- Keys appended to `missing_keys` at one node. -/
def nodeMissing (sd : StateDict) (nd : WalkNode) : List Key :=
  nd.params.filterMap (fun pr =>
    match lookupK (nd.pfx ++ pr.1) sd with
    | some _ => none
    | none => some (nd.pfx ++ pr.1))

/-- Keys whose size-mismatch messages are appended to `error_msgs` at one
node. -/
def nodeErrors (sd : StateDict) (nd : WalkNode) : List Key :=
  nd.params.filterMap (fun pr =>
    match lookupK (nd.pfx ++ pr.1) sd with
    | some srcShape => if srcShape ≠ pr.2 then some (nd.pfx ++ pr.1) else none
    | none => none)

/-- Target keys actually copied from the source at one node. -/
def nodePopulated (sd : StateDict) (nd : WalkNode) : List Key :=
  nd.params.filterMap (fun pr =>
    match lookupK (nd.pfx ++ pr.1) sd with
    | some srcShape => if srcShape = pr.2 then some (nd.pfx ++ pr.1) else none
    | none => none)

/-- Keys appended to `unexpected_keys` by the strict scan at one node. -/
def nodeUnexpected (sd : StateDict) (nd : WalkNode) : List Key :=
  (sd.map Prod.fst).filter (fun key =>
    startsWithK key nd.pfx &&
      !(nd.childNames.contains (takeUntilDot (key.drop nd.pfx.length)) ||
        (nd.params.map Prod.fst).contains (takeUntilDot (key.drop nd.pfx.length))))

/-- The four diagnostic lists accumulated by a load call. -/
structure LoadAcc where
  missing : List Key
  unexpected : List Key
  errors : List Key
  populated : List Key
deriving DecidableEq, Repr

/-- The whole `load(model, start_prefix)` walk. -/
def loadWalk (sd : StateDict) (m : ModuleTree) (pfx : Key) : LoadAcc :=
  let nds := walkNodes m pfx
  ⟨nds.flatMap (nodeMissing sd), nds.flatMap (nodeUnexpected sd),
    nds.flatMap (nodeErrors sd), nds.flatMap (nodePopulated sd)⟩

@[simp] theorem loadWalk_missing (sd : StateDict) (m : ModuleTree) (pfx : Key) :
    (loadWalk sd m pfx).missing = (walkNodes m pfx).flatMap (nodeMissing sd) := rfl

@[simp] theorem loadWalk_unexpected (sd : StateDict) (m : ModuleTree) (pfx : Key) :
    (loadWalk sd m pfx).unexpected = (walkNodes m pfx).flatMap (nodeUnexpected sd) := rfl

@[simp] theorem loadWalk_errors (sd : StateDict) (m : ModuleTree) (pfx : Key) :
    (loadWalk sd m pfx).errors = (walkNodes m pfx).flatMap (nodeErrors sd) := rfl

@[simp] theorem loadWalk_populated (sd : StateDict) (m : ModuleTree) (pfx : Key) :
    (loadWalk sd m pfx).populated = (walkNodes m pfx).flatMap (nodePopulated sd) := rfl

/-- `hasattr(model, 'bert')` on the target root. -/
def hasBertRoot : ModuleTree → Bool
  | .mk ps cs => cs.names.contains (strK "bert") || (ps.map Prod.fst).contains (strK "bert")

/-- The `start_prefix` selection of `from_pretrained`. -/
def startPfxOf (sd : StateDict) (m : ModuleTree) : Key :=
  if !hasBertRoot m && sd.any (fun kv => startsWithK kv.1 (strK "bert.")) then
    strK "bert."
  else []

/-- The populated model together with its logged diagnostics. -/
structure LoadResult where
  missing : List Key
  unexpected : List Key
deriving DecidableEq, Repr

/-- The tail of `from_pretrained`: run the walk and raise iff
`error_msgs` is non-empty. -/
def fromPretrainedLoad (sd : StateDict) (m : ModuleTree) :
    Except (List Key) LoadResult :=
  let acc := loadWalk sd m (startPfxOf sd m)
  if acc.errors.isEmpty then .ok ⟨acc.missing, acc.unexpected⟩ else .error acc.errors

/-- All parameter keys of the target tree (the model's
`state_dict().keys()` relative to the walk's start prefix). -/
def targetKeys (m : ModuleTree) (pfx : Key) : List Key :=
  (walkNodes m pfx).flatMap (fun nd => nd.params.map (fun pr => nd.pfx ++ pr.1))

/-- All keys of the source checkpoint. -/
def sourceKeys (sd : StateDict) : List Key := sd.map Prod.fst

theorem flatMap_nil_forall {α β : Type _} {f : α → List β} {l : List α}
    (h : l.flatMap f = []) : ∀ x ∈ l, f x = [] := by
  intro x hx
  apply List.eq_nil_iff_forall_not_mem.mpr
  intro b hb
  have hmem : b ∈ l.flatMap f := List.mem_flatMap.mpr ⟨x, hx, hb⟩
  rw [h] at hmem
  exact List.not_mem_nil b hmem

/-- At a node with no size-mismatch errors, the missing and populated
keys together are exactly the node's parameter keys. -/
theorem node_partition {sd : StateDict} {nd : WalkNode}
    (hE : nodeErrors sd nd = []) (k : Key) :
    (k ∈ nodeMissing sd nd ∨ k ∈ nodePopulated sd nd) ↔
      k ∈ nd.params.map (fun pr => nd.pfx ++ pr.1) := by
  unfold nodeErrors at hE
  have hEnone := List.filterMap_eq_nil_iff.mp hE
  constructor
  · rintro (hk | hk)
    · rcases List.mem_filterMap.mp hk with ⟨pr, hpr, hsome⟩
      cases hlk : lookupK (nd.pfx ++ pr.1) sd with
      | some s =>
        simp only [hlk] at hsome
        exact Option.noConfusion hsome
      | none =>
        simp only [hlk] at hsome
        cases hsome
        exact List.mem_map.mpr ⟨pr, hpr, rfl⟩
    · rcases List.mem_filterMap.mp hk with ⟨pr, hpr, hsome⟩
      cases hlk : lookupK (nd.pfx ++ pr.1) sd with
      | none =>
        simp only [hlk] at hsome
        exact Option.noConfusion hsome
      | some s =>
        simp only [hlk] at hsome
        by_cases hs : s = pr.2
        · rw [if_pos hs] at hsome
          cases hsome
          exact List.mem_map.mpr ⟨pr, hpr, rfl⟩
        · rw [if_neg hs] at hsome
          cases hsome
  · intro hk
    rcases List.mem_map.mp hk with ⟨pr, hpr, rfl⟩
    cases hlk : lookupK (nd.pfx ++ pr.1) sd with
    | none =>
      left
      exact List.mem_filterMap.mpr ⟨pr, hpr, by simp only [hlk]⟩
    | some s =>
      by_cases hs : s = pr.2
      · right
        exact List.mem_filterMap.mpr ⟨pr, hpr, by simp only [hlk, if_pos hs]⟩
      · exfalso
        have hcon := hEnone pr hpr
        simp only [hlk, if_pos hs] at hcon
        exact Option.noConfusion hcon

theorem nodePopulated_subset_source {sd : StateDict} {nd : WalkNode} {k : Key}
    (hk : k ∈ nodePopulated sd nd) : k ∈ sourceKeys sd := by
  rcases List.mem_filterMap.mp hk with ⟨pr, hpr, hsome⟩
  cases hlk : lookupK (nd.pfx ++ pr.1) sd with
  | none =>
    simp only [hlk] at hsome
    exact Option.noConfusion hsome
  | some s =>
    simp only [hlk] at hsome
    by_cases hs : s = pr.2
    · rw [if_pos hs] at hsome
      cases hsome
      exact lookupK_some_mem_fst hlk
    · rw [if_neg hs] at hsome
      cases hsome

theorem nodeUnexpected_subset_source {sd : StateDict} {nd : WalkNode} {k : Key}
    (hk : k ∈ nodeUnexpected sd nd) : k ∈ sourceKeys sd :=
  (List.mem_filter.mp hk).1

/-- C3: checkpoint load outcome.  A load reaches the `Loaded` outcome iff
the error-message list accumulated during the tree walk is empty after
the full walk — missing or unexpected keys never cause a failure, and the
returned diagnostics are exactly the accumulated missing/unexpected
lists. -/
theorem claim_C3_load_outcome (sd : StateDict) (m : ModuleTree) :
    ((fromPretrainedLoad sd m).isOk = true ↔
      (loadWalk sd m (startPfxOf sd m)).errors = []) ∧
    ∀ r, fromPretrainedLoad sd m = .ok r →
      r.missing = (loadWalk sd m (startPfxOf sd m)).missing ∧
      r.unexpected = (loadWalk sd m (startPfxOf sd m)).unexpected := by
  simp only [fromPretrainedLoad]
  by_cases h : (loadWalk sd m (startPfxOf sd m)).errors = []
  · rw [if_pos (by rw [h]; rfl)]
    refine ⟨⟨fun _ => h, fun _ => rfl⟩, ?_⟩
    intro r hr
    cases hr
    exact ⟨rfl, rfl⟩
  · rw [if_neg (fun hc => h (List.isEmpty_iff.mp hc))]
    refine ⟨⟨fun hok => Bool.noConfusion hok, fun he => absurd he h⟩, ?_⟩
    intro r hr
    cases hr

theorem claim_C3_witness :
    (loadWalk [(strK "v", [3])] (ModuleTree.mk [(strK "w", [2])] .nil)
        (startPfxOf [(strK "v", [3])] (ModuleTree.mk [(strK "w", [2])] .nil))).missing ≠ [] ∧
    (loadWalk [(strK "v", [3])] (ModuleTree.mk [(strK "w", [2])] .nil)
        (startPfxOf [(strK "v", [3])] (ModuleTree.mk [(strK "w", [2])] .nil))).unexpected ≠ [] ∧
    (fromPretrainedLoad [(strK "v", [3])] (ModuleTree.mk [(strK "w", [2])] .nil)).isOk = true := by
  refine ⟨by decide, by decide, ?_⟩
  exact (claim_C3_load_outcome [(strK "v", [3])] (ModuleTree.mk [(strK "w", [2])] .nil)).1.mpr
    (by decide)

/-- C4 (amended): after a load whose walk produced no error messages,
the missing keys together with the target keys actually populated from
the source are exactly the full set of target parameter keys; and the
unexpected keys together with the consumed (populated) keys are always
CONTAINED IN the source key set.  The reverse inclusion claimed for the
source side does not hold in general (see the counterexample). -/
theorem claim_C4_coverage (sd : StateDict) (m : ModuleTree) (pfx : Key)
    (hE : (loadWalk sd m pfx).errors = []) :
    (∀ k, (k ∈ (loadWalk sd m pfx).missing ∨ k ∈ (loadWalk sd m pfx).populated) ↔
      k ∈ targetKeys m pfx) ∧
    (∀ k, (k ∈ (loadWalk sd m pfx).unexpected ∨ k ∈ (loadWalk sd m pfx).populated) →
      k ∈ sourceKeys sd) := by
  rw [loadWalk_errors] at hE
  constructor
  · intro k
    rw [loadWalk_missing, loadWalk_populated]
    unfold targetKeys
    constructor
    · rintro (hk | hk)
      · rcases List.mem_flatMap.mp hk with ⟨nd, hnd, hknd⟩
        exact List.mem_flatMap.mpr ⟨nd, hnd,
          (node_partition (flatMap_nil_forall hE nd hnd) k).mp (Or.inl hknd)⟩
      · rcases List.mem_flatMap.mp hk with ⟨nd, hnd, hknd⟩
        exact List.mem_flatMap.mpr ⟨nd, hnd,
          (node_partition (flatMap_nil_forall hE nd hnd) k).mp (Or.inr hknd)⟩
    · intro hk
      rcases List.mem_flatMap.mp hk with ⟨nd, hnd, hknd⟩
      rcases (node_partition (flatMap_nil_forall hE nd hnd) k).mpr hknd with h | h
      · exact Or.inl (List.mem_flatMap.mpr ⟨nd, hnd, h⟩)
      · exact Or.inr (List.mem_flatMap.mpr ⟨nd, hnd, h⟩)
  · intro k hk
    rw [loadWalk_unexpected, loadWalk_populated] at hk
    rcases hk with hk | hk <;> rcases List.mem_flatMap.mp hk with ⟨nd, hnd, hknd⟩
    · exact nodeUnexpected_subset_source hknd
    · exact nodePopulated_subset_source hknd

theorem claim_C4_witness :
    ((strK "x" ∈ (loadWalk [(strK "w", [2]), (strK "z", [9])]
          (ModuleTree.mk [(strK "w", [2]), (strK "x", [3])] .nil) []).missing ∨
      strK "x" ∈ (loadWalk [(strK "w", [2]), (strK "z", [9])]
          (ModuleTree.mk [(strK "w", [2]), (strK "x", [3])] .nil) []).populated) ↔
      strK "x" ∈ targetKeys (ModuleTree.mk [(strK "w", [2]), (strK "x", [3])] .nil) []) ∧
    ((strK "z" ∈ (loadWalk [(strK "w", [2]), (strK "z", [9])]
          (ModuleTree.mk [(strK "w", [2]), (strK "x", [3])] .nil) []).unexpected ∨
      strK "z" ∈ (loadWalk [(strK "w", [2]), (strK "z", [9])]
          (ModuleTree.mk [(strK "w", [2]), (strK "x", [3])] .nil) []).populated) →
      strK "z" ∈ sourceKeys [(strK "w", [2]), (strK "z", [9])]) :=
  ⟨(claim_C4_coverage [(strK "w", [2]), (strK "z", [9])]
      (ModuleTree.mk [(strK "w", [2]), (strK "x", [3])] .nil) [] (by decide)).1 (strK "x"),
   (claim_C4_coverage [(strK "w", [2]), (strK "z", [9])]
      (ModuleTree.mk [(strK "w", [2]), (strK "x", [3])] .nil) [] (by decide)).2 (strK "z")⟩

/-- A source checkpoint whose single key exactly names a child module of
the target. -/
def shadowSD : StateDict := [(strK "a", [5])]

/-- A target with one child module `a` holding one parameter `w`. -/
def shadowTree : ModuleTree :=
  ModuleTree.mk [] (.cons (strK "a") (.mk [(strK "w", [2])] .nil) .nil)

/-- C4 (counterexample to the claim as stated): the source key `"a"`
exactly names a submodule, so the strict scan treats it as known (never
unexpected), yet no parameter consumes it; the load completes without
errors, and `unexpected ∪ consumed` misses the source key `"a"` — the
source-side coverage equation fails. -/
theorem claim_C4_counterexample :
    strK "a" ∈ sourceKeys shadowSD ∧
    (fromPretrainedLoad shadowSD shadowTree).isOk = true ∧
    (loadWalk shadowSD shadowTree (startPfxOf shadowSD shadowTree)).errors = [] ∧
    strK "a" ∉ (loadWalk shadowSD shadowTree (startPfxOf shadowSD shadowTree)).unexpected ∧
    strK "a" ∉ (loadWalk shadowSD shadowTree (startPfxOf shadowSD shadowTree)).populated := by
  decide

/-! ## Embedding encoders and the joint aligner (`modeling_bertU.py`, E–G)

Hidden states are `[batch, sequence, hidden]` nested rational lists.
Dropout is the identity (evaluation mode).  torch's `LayerNorm` divides by
`sqrt(var + eps)`; the reciprocal square root is the model parameter
`rsqrt` (a floating point operation with no exact rational counterpart —
none of the claims depends on its value). -/

/-- A hidden-state vector. -/
abbrev Vec := List ℚ

/-- A per-example sequence of hidden vectors. -/
abbrev Seq := List Vec

/-- A batched embedding tensor `[batch, seq, hidden]`. -/
abbrev Emb := List Seq

/-- Elementwise tensor addition on the hidden axis. -/
def vecAdd (a b : Vec) : Vec := List.zipWith (· + ·) a b

/-- Dot product. -/
def dot (a b : Vec) : ℚ := (List.zipWith (· * ·) a b).sum

/-- `nn.Linear`: `W x + b`, with the rows of `W` indexed by output
features. -/
def linearMap (W : Seq) (b : Vec) (x : Vec) : Vec :=
  List.zipWith (· + ·) (W.map (fun row => dot row x)) b

/-- torch `LayerNorm` (eps `1e-12`) over the hidden axis, with learned
weight `w` and bias `b`. -/
def layerNorm (rsqrt : ℚ → ℚ) (w b x : Vec) : Vec :=
  let n : ℚ := x.length
  let mean := x.sum / n
  let var := (x.map (fun t => (t - mean) ^ 2)).sum / n
  let inv := rsqrt (var + 1 / 1000000000000)
  List.zipWith (· + ·) (List.zipWith (· * ·) (x.map (fun t => (t - mean) * inv)) w) b

/-- The parameters of `BertU` used by the embedding layers:
`UniterTextEmbeddings` (word/position/token-type tables and LayerNorm) and
`UniterImageEmbeddings` (feature and position projections, their separate
LayerNorms and the final LayerNorm). -/
structure BertUModel where
  hiddenSize : ℕ
  maxPositionEmbeddings : ℕ
  wordEmbeddings : Seq
  positionEmbeddings : Seq
  tokenTypeEmbeddings : Seq
  txtLnW : Vec
  txtLnB : Vec
  imgLinearW : Seq
  imgLinearB : Vec
  posLinearW : Seq
  posLinearB : Vec
  imgLnW : Vec
  imgLnB : Vec
  posLnW : Vec
  posLnB : Vec
  imgFinalLnW : Vec
  imgFinalLnB : Vec
  rsqrt : ℚ → ℚ

/-- `UniterTextEmbeddings.forward` for one example: position ids default
to the `position_ids` buffer `[0..max)` sliced to the sequence length
(the `repeat` across the batch makes every example use the same slice),
token-type ids default to zero; word, position and type embeddings are
summed and layer-normalised (dropout is the identity). -/
def uniterTextEmbForward (m : BertUModel) (inputIds : List ℕ)
    (positionIds : Option (List ℕ)) (tokenTypeIds : Option (List ℕ)) : Seq :=
  let seqLength := inputIds.length
  let positionIds := positionIds.getD ((List.range m.maxPositionEmbeddings).take seqLength)
  let tokenTypeIds := tokenTypeIds.getD (List.replicate seqLength 0)
  let inputsEmbeds := inputIds.map (fun i => m.wordEmbeddings.getD i [])
  let positionEmbeds := positionIds.map (fun i => m.positionEmbeddings.getD i [])
  let tokenTypeEmbeds := tokenTypeIds.map (fun i => m.tokenTypeEmbeddings.getD i [])
  let embeddings :=
    List.zipWith vecAdd (List.zipWith vecAdd inputsEmbeds positionEmbeds) tokenTypeEmbeds
  embeddings.map (layerNorm m.rsqrt m.txtLnW m.txtLnB)

/-- `BertU._compute_txt_embeddings` over a batch. -/
def computeTxtEmbeddings (m : BertUModel) (inputIds : List (List ℕ))
    (positionIds tokenTypeIds : Option (List (List ℕ))) : Emb :=
  inputIds.mapIdx (fun b row =>
    uniterTextEmbForward m row (positionIds.map (fun p => p.getD b []))
      (tokenTypeIds.map (fun p => p.getD b [])))

/-- `UniterImageEmbeddings.forward` for one example: the feature and
position projections each get their own LayerNorm, the modality type
embedding is added, and a final LayerNorm closes the block. -/
def uniterImageEmbForward (m : BertUModel) (imgFeat imgPosFeat : Seq)
    (typeEmbeddings : Seq) : Seq :=
  let transformedIm := imgFeat.map (fun f =>
    layerNorm m.rsqrt m.imgLnW m.imgLnB (linearMap m.imgLinearW m.imgLinearB f))
  let transformedPos := imgPosFeat.map (fun p =>
    layerNorm m.rsqrt m.posLnW m.posLnB (linearMap m.posLinearW m.posLinearB p))
  let embeddings :=
    List.zipWith vecAdd (List.zipWith vecAdd transformedIm transformedPos) typeEmbeddings
  embeddings.map (layerNorm m.rsqrt m.imgFinalLnW m.imgFinalLnB)

/-- `torch.ones_like(img_feat[:, :, 0].long())`: one type id per region. -/
def defaultImgTypeIds (imgFeat : Emb) : List (List ℕ) :=
  imgFeat.map (fun ex => List.replicate ex.length 1)

/-- `BertU._compute_img_embeddings`: with `img_type_ids` absent the ids
default to all ones, and the modality marker is looked up in the TEXT
tower's `token_type_embeddings` table. -/
def computeImgEmbeddings (m : BertUModel) (imgFeat imgPosFeat : Emb)
    (imgTypeIds : Option (List (List ℕ))) : Emb :=
  let tids := imgTypeIds.getD (defaultImgTypeIds imgFeat)
  imgFeat.mapIdx (fun b ex =>
    uniterImageEmbForward m ex (imgPosFeat.getD b [])
      ((tids.getD b []).map (fun t => m.tokenTypeEmbeddings.getD t [])))

/-- `torch.cat([txt_emb, img_emb], dim=1)`. -/
def catSeqDim1 (a b : Emb) : Emb := List.zipWith (· ++ ·) a b

/-- `gather_index.unsqueeze(-1).expand(-1, -1, hidden_size)`. -/
def expandGatherIndex (g : List (List ℕ)) (hidden : ℕ) : List (List (List ℕ)) :=
  g.map (fun row => row.map (fun i => List.replicate hidden i))

/-- `torch.gather(input, dim=1, index)`:
`out[b][k][h] = input[b][index[b][k][h]][h]`. -/
def torchGatherDim1 (input : Emb) (index : List (List (List ℕ))) : Emb :=
  index.mapIdx (fun b mat =>
    mat.map (fun idxRow =>
      idxRow.mapIdx (fun h i => ((input.getD b []).getD i []).getD h 0)))

/-- The merge step of `BertU._compute_img_txt_embeddings`: concatenate
text then image along the sequence axis and gather by the expanded
`gather_index`. -/
def alignGatherMerge (txtEmb imgEmb : Emb) (gatherIndex : List (List ℕ))
    (hidden : ℕ) : Emb :=
  torchGatherDim1 (catSeqDim1 txtEmb imgEmb) (expandGatherIndex gatherIndex hidden)

/-- `BertU._compute_img_txt_embeddings`. -/
def computeImgTxtEmbeddings (m : BertUModel) (inputIds : List (List ℕ))
    (positionIds : Option (List (List ℕ))) (imgFeat imgPosFeat : Emb)
    (gatherIndex : List (List ℕ))
    (txtTypeIds imgTypeIds : Option (List (List ℕ))) : Emb :=
  alignGatherMerge (computeTxtEmbeddings m inputIds positionIds txtTypeIds)
    (computeImgEmbeddings m imgFeat imgPosFeat imgTypeIds)
    gatherIndex m.hiddenSize

/-- The embedding branch of `BertU.forward`: image-only when `input_ids`
is `None`, text-only when `img_feat` is `None` (the gather step is
skipped), joint otherwise.  `none` models the combinations on which the
Python code would raise a low-level `TypeError` (both inputs absent, or a
joint call without a gather index — undefined by design). -/
def bertUEmbeddingOutput (m : BertUModel) (inputIds : Option (List (List ℕ)))
    (positionIds : Option (List (List ℕ))) (imgFeat imgPosFeat : Option Emb)
    (gatherIndex : Option (List (List ℕ)))
    (txtTypeIds imgTypeIds : Option (List (List ℕ))) : Option Emb :=
  match inputIds, imgFeat with
  | none, some f =>
    some (computeImgEmbeddings m f (imgPosFeat.getD []) imgTypeIds)
  | none, none => none
  | some ids, none =>
    some (computeTxtEmbeddings m ids positionIds txtTypeIds)
  | some ids, some f =>
    match gatherIndex with
    | some g => some (computeImgTxtEmbeddings m ids positionIds f
        (imgPosFeat.getD []) g txtTypeIds imgTypeIds)
    | none => none

/-! ## Self-attention stack and forward pass (`modeling_bertU.py`, C, F, G) -/

/-- The per-layer parameters of `BertLayer`.  `scale` stands for
`1/sqrt(attention_head_size)`, `softmaxFn` for the row softmax and
`actFn` for the configured activation — floating point operations with no
exact rational counterpart, kept as parameters. -/
structure LayerParams where
  numHeads : ℕ
  headSize : ℕ
  scale : ℚ
  queryW : Seq
  queryB : Vec
  keyW : Seq
  keyB : Vec
  valueW : Seq
  valueB : Vec
  softmaxFn : Vec → Vec
  selfOutW : Seq
  selfOutB : Vec
  selfOutLnW : Vec
  selfOutLnB : Vec
  interW : Seq
  interB : Vec
  actFn : ℚ → ℚ
  outW : Seq
  outB : Vec
  outLnW : Vec
  outLnB : Vec
  rsqrt : ℚ → ℚ

/-- `transpose_for_scores` at one position: the slice of the projected
vector belonging to attention head `h`. -/
def headSlice (h dh : ℕ) (v : Vec) : Vec := (v.drop (h * dh)).take dh

/-- Raw attention scores of head `h`: `Q Kᵀ / sqrt(head_size)`. -/
def rawScoresHead (p : LayerParams) (hidden : Seq) (h : ℕ) : Seq :=
  let qs := hidden.map (fun x => headSlice h p.headSize (linearMap p.queryW p.queryB x))
  let ks := hidden.map (fun x => headSlice h p.headSize (linearMap p.keyW p.keyB x))
  qs.map (fun q => ks.map (fun k => dot q k * p.scale))

/-- `attention_scores = attention_scores + attention_mask`: the extended
mask row is broadcast over the key axis of every query row. -/
def scoresHead (p : LayerParams) (hidden : Seq) (mask : Vec) (h : ℕ) : Seq :=
  (rawScoresHead p hidden h).map (fun row => List.zipWith (· + ·) row mask)

/-- `probs @ V` for one query row. -/
def weightedSum (ws : Vec) (vs : Seq) (len : ℕ) : Vec :=
  (List.zipWith (fun w v => v.map (w * ·)) ws vs).foldr vecAdd (List.replicate len 0)

/-- Per-head context vectors: softmax over the masked scores (attention
dropout is the identity), then the weighted sum of value slices. -/
def selfAttentionHead (p : LayerParams) (hidden : Seq) (mask : Vec) (h : ℕ) : Seq :=
  let probs := (scoresHead p hidden mask h).map p.softmaxFn
  let vs := hidden.map (fun x => headSlice h p.headSize (linearMap p.valueW p.valueB x))
  probs.map (fun prow => weightedSum prow vs p.headSize)

/-- `BertSelfAttention.forward`: per-position concatenation of all head
contexts. -/
def bertSelfAttention (p : LayerParams) (hidden : Seq) (mask : Vec) : Seq :=
  (List.range hidden.length).map (fun i =>
    ((List.range p.numHeads).map
      (fun h => (selfAttentionHead p hidden mask h).getD i [])).flatten)

/-- `BertSelfOutput`: dense, dropout (identity), LayerNorm over the
residual sum. -/
def bertSelfOutput (p : LayerParams) (x inputTensor : Seq) : Seq :=
  (List.zipWith vecAdd (x.map (linearMap p.selfOutW p.selfOutB)) inputTensor).map
    (layerNorm p.rsqrt p.selfOutLnW p.selfOutLnB)

/-- `BertAttention.forward`. -/
def bertAttention (p : LayerParams) (inputTensor : Seq) (mask : Vec) : Seq :=
  bertSelfOutput p (bertSelfAttention p inputTensor mask) inputTensor

/-- `BertIntermediate.forward`. -/
def bertIntermediate (p : LayerParams) (hidden : Seq) : Seq :=
  hidden.map (fun x => (linearMap p.interW p.interB x).map p.actFn)

/-- `BertOutput.forward`. -/
def bertOutput (p : LayerParams) (hidden inputTensor : Seq) : Seq :=
  (List.zipWith vecAdd (hidden.map (linearMap p.outW p.outB)) inputTensor).map
    (layerNorm p.rsqrt p.outLnW p.outLnB)

/-- `BertLayer.forward`. -/
def bertLayerForward (p : LayerParams) (hidden : Seq) (mask : Vec) : Seq :=
  let attentionOutput := bertAttention p hidden mask
  let intermediateOutput := bertIntermediate p attentionOutput
  bertOutput p intermediateOutput attentionOutput

/-- One layer over the batch; each example uses its own row of the
extended attention mask. -/
def bertLayerBatch (p : LayerParams) (hidden : Emb) (mask : Seq) : Emb :=
  hidden.mapIdx (fun b ex => bertLayerForward p ex (mask.getD b []))

/-- `UniterEncoder.forward` (final layer output): every layer receives
the same attention mask. -/
def uniterEncoderForward (layers : List LayerParams) (hidden : Emb) (mask : Seq) : Emb :=
  layers.foldl (fun h p => bertLayerBatch p h mask) hidden

/-- `BertPooler` parameters; `tanhFn` models `nn.Tanh`. -/
structure PoolerParams where
  denseW : Seq
  denseB : Vec
  tanhFn : ℚ → ℚ

/-- `BertPooler.forward`: dense and tanh on the first position's state. -/
def bertPoolerForward (pp : PoolerParams) (hidden : Emb) : Seq :=
  hidden.map (fun ex => (linearMap pp.denseW pp.denseB (ex.getD 0 [])).map pp.tanhFn)

/-- `extended_attention_mask = (1.0 - attention_mask) * -10000.0`,
broadcast over the head and query axes (per example it depends only on
the key position). -/
def extendedAttentionMask (mask : Seq) : Seq :=
  mask.map (fun row => row.map (fun x => (1 - x) * (-10000)))

/-- `BertU.forward`: the extended attention mask is computed once, before
and independently of the embedding branch; the encoder then runs on the
selected embedding output, and the pooler on the encoder output. -/
def bertUForward (m : BertUModel) (layers : List LayerParams) (pp : PoolerParams)
    (inputIds : Option (List (List ℕ))) (positionIds : Option (List (List ℕ)))
    (imgFeat imgPosFeat : Option Emb) (attentionMask : Seq)
    (gatherIndex : Option (List (List ℕ)))
    (txtTypeIds imgTypeIds : Option (List (List ℕ))) : Option (Emb × Seq) :=
  let extended := extendedAttentionMask attentionMask
  (bertUEmbeddingOutput m inputIds positionIds imgFeat imgPosFeat gatherIndex
      txtTypeIds imgTypeIds).map
    (fun embeddingOutput =>
      let encoded := uniterEncoderForward layers embeddingOutput extended
      (encoded, bertPoolerForward pp encoded))

theorem getD_map {α β : Type _} (f : α → β) (l : List α) (n : ℕ)
    (hn : n < l.length) (d : β) (d0 : α) : (l.map f).getD n d = f (l.getD n d0) := by
  rw [List.getD_eq_getElem _ _ (by simpa using hn), List.getD_eq_getElem _ _ hn]
  exact List.getElem_map f

theorem getD_zipWith {α β γ : Type _} (f : α → β → γ) (a : List α) (b : List β)
    (n : ℕ) (hna : n < a.length) (hnb : n < b.length) (d : γ) (da : α) (db : β) :
    (List.zipWith f a b).getD n d = f (a.getD n da) (b.getD n db) := by
  rw [List.getD_eq_getElem _ _ (by simp; omega), List.getD_eq_getElem _ _ hna,
    List.getD_eq_getElem _ _ hnb]
  exact List.getElem_zipWith

theorem mapIdx_getD {α β : Type _} (f : ℕ → α → β) (l : List α) (n : ℕ)
    (hn : n < l.length) (d : β) (d0 : α) : (l.mapIdx f).getD n d = f n (l.getD n d0) := by
  rw [List.getD_eq_getElem _ _ (by simpa using hn), List.getD_eq_getElem _ _ hn]
  exact List.getElem_mapIdx

theorem mapIdx_replicate {β : Type _} (f : ℕ → ℕ → β) (hidden i : ℕ) :
    (List.replicate hidden i).mapIdx f = (List.range hidden).map (fun h => f h i) := by
  apply List.ext_getElem (by simp)
  intro j h1 h2
  simp only [List.getElem_mapIdx, List.getElem_replicate, List.getElem_map,
    List.getElem_range]

theorem range_map_getD (l : Vec) :
    (List.range l.length).map (fun h => l.getD h 0) = l := by
  apply List.ext_getElem (by simp)
  intro i h1 h2
  simp only [List.getElem_map, List.getElem_range]
  rw [List.getD_eq_getElem _ _ h2]

/-- C1: joint aligner gather correctness.  For per-example text and image
embedding sequences whose hidden vectors all have width `hidden`, and a
gather index whose entries lie in `[0, Lt+Li)`, the merged output of the
joint path satisfies `O[b][k] = (T[b] ++ I[b])[G[b][k]]` — text
concatenated first, image second. -/
theorem claim_C1_gather_correct (txtEmb imgEmb : Emb) (g : List (List ℕ))
    (hidden b k : ℕ)
    (hbg : b < g.length) (hbT : b < txtEmb.length) (hbI : b < imgEmb.length)
    (hrowT : ∀ ex ∈ txtEmb, ∀ row ∈ ex, row.length = hidden)
    (hrowI : ∀ ex ∈ imgEmb, ∀ row ∈ ex, row.length = hidden)
    (hk : k < (g.getD b []).length)
    (hidx : (g.getD b []).getD k 0 <
      (txtEmb.getD b []).length + (imgEmb.getD b []).length) :
    ((alignGatherMerge txtEmb imgEmb g hidden).getD b []).getD k [] =
      (txtEmb.getD b [] ++ imgEmb.getD b []).getD ((g.getD b []).getD k 0) [] := by
  have hcat : (catSeqDim1 txtEmb imgEmb).getD b [] =
      txtEmb.getD b [] ++ imgEmb.getD b [] :=
    getD_zipWith _ txtEmb imgEmb b hbT hbI [] [] []
  unfold alignGatherMerge torchGatherDim1 expandGatherIndex
  rw [mapIdx_getD _ _ b (by simpa using hbg) [] [],
    getD_map _ g b hbg [] [], List.map_map,
    getD_map _ (g.getD b []) k hk [] 0]
  simp only [Function.comp]
  rw [mapIdx_replicate, hcat]
  set gi := (g.getD b []).getD k 0 with hgi
  have hmem : (txtEmb.getD b [] ++ imgEmb.getD b []).getD gi [] ∈
      txtEmb.getD b [] ++ imgEmb.getD b [] := by
    rw [List.getD_eq_getElem (txtEmb.getD b [] ++ imgEmb.getD b []) []
      (by rw [List.length_append]; exact hidx)]
    exact List.getElem_mem _
  have hlen : ((txtEmb.getD b [] ++ imgEmb.getD b []).getD gi []).length = hidden := by
    rcases List.mem_append.mp hmem with hmt | hmi
    · exact hrowT _ (by rw [List.getD_eq_getElem _ _ hbT]; exact List.getElem_mem _) _ hmt
    · exact hrowI _ (by rw [List.getD_eq_getElem _ _ hbI]; exact List.getElem_mem _) _ hmi
  calc (List.range hidden).map
        (fun h => ((txtEmb.getD b [] ++ imgEmb.getD b []).getD gi []).getD h 0)
      = (List.range (((txtEmb.getD b [] ++ imgEmb.getD b []).getD gi []).length)).map
        (fun h => ((txtEmb.getD b [] ++ imgEmb.getD b []).getD gi []).getD h 0) := by
        rw [hlen]
    _ = (txtEmb.getD b [] ++ imgEmb.getD b []).getD gi [] := range_map_getD _

theorem claim_C1_witness :
    ((alignGatherMerge [[[1, 2], [3, 4]]] [[[5, 6]]] [[2, 0]] 2).getD 0 []).getD 1 [] =
      (([[(1 : ℚ), 2], [3, 4]] : Seq) ++ [[5, 6]]).getD (([2, 0] : List ℕ).getD 1 0) [] :=
  claim_C1_gather_correct [[[1, 2], [3, 4]]] [[[5, 6]]] [[2, 0]] 2 0 1
    (by decide) (by decide) (by decide) (by decide) (by decide) (by decide) (by decide)

/-- C6: mode equivalence.  With the image input absent the forward pass's
embedding output is bit-identical to the text-only path run directly on
the same text input (the gather step is skipped); symmetrically, with the
text input absent it is bit-identical to the image-only path, and the
full forward factors through the same branch outputs. -/
theorem claim_C6_mode_equivalence (m : BertUModel) (layers : List LayerParams)
    (pp : PoolerParams) (ids : List (List ℕ)) (positionIds : Option (List (List ℕ)))
    (imgPosFeat : Option Emb) (attentionMask : Seq)
    (gatherIndex : Option (List (List ℕ)))
    (txtTypeIds imgTypeIds : Option (List (List ℕ))) (f : Emb) :
    bertUEmbeddingOutput m (some ids) positionIds none imgPosFeat gatherIndex
        txtTypeIds imgTypeIds =
      some (computeTxtEmbeddings m ids positionIds txtTypeIds) ∧
    bertUEmbeddingOutput m none positionIds (some f) imgPosFeat gatherIndex
        txtTypeIds imgTypeIds =
      some (computeImgEmbeddings m f (imgPosFeat.getD []) imgTypeIds) ∧
    bertUForward m layers pp (some ids) positionIds none imgPosFeat attentionMask
        gatherIndex txtTypeIds imgTypeIds =
      some (uniterEncoderForward layers (computeTxtEmbeddings m ids positionIds txtTypeIds)
          (extendedAttentionMask attentionMask),
        bertPoolerForward pp (uniterEncoderForward layers
          (computeTxtEmbeddings m ids positionIds txtTypeIds)
          (extendedAttentionMask attentionMask))) ∧
    bertUForward m layers pp none positionIds (some f) imgPosFeat attentionMask
        gatherIndex txtTypeIds imgTypeIds =
      some (uniterEncoderForward layers (computeImgEmbeddings m f (imgPosFeat.getD [])
            imgTypeIds) (extendedAttentionMask attentionMask),
        bertPoolerForward pp (uniterEncoderForward layers
          (computeImgEmbeddings m f (imgPosFeat.getD []) imgTypeIds)
          (extendedAttentionMask attentionMask))) :=
  ⟨rfl, rfl, rfl, rfl⟩

/-- C7: extended attention mask.  The extended mask equals
`(1 - mask) * -10000` entrywise; the forward pass factors through one
mask computation made before and independently of the embedding branch;
the encoder hands the same mask to every layer; and inside each
self-attention layer the mask is added to the raw attention scores. -/
theorem claim_C7_extended_mask (m : BertUModel) (layers : List LayerParams)
    (pp : PoolerParams) (inputIds : Option (List (List ℕ)))
    (positionIds : Option (List (List ℕ))) (imgFeat imgPosFeat : Option Emb)
    (attentionMask : Seq) (gatherIndex : Option (List (List ℕ)))
    (txtTypeIds imgTypeIds : Option (List (List ℕ)))
    (b j : ℕ) (hb : b < attentionMask.length)
    (hj : j < (attentionMask.getD b []).length) :
    ((extendedAttentionMask attentionMask).getD b []).getD j 0 =
      (1 - (attentionMask.getD b []).getD j 0) * (-10000) ∧
    bertUForward m layers pp inputIds positionIds imgFeat imgPosFeat attentionMask
        gatherIndex txtTypeIds imgTypeIds =
      (bertUEmbeddingOutput m inputIds positionIds imgFeat imgPosFeat gatherIndex
          txtTypeIds imgTypeIds).map
        (fun e =>
          (uniterEncoderForward layers e (extendedAttentionMask attentionMask),
            bertPoolerForward pp (uniterEncoderForward layers e
              (extendedAttentionMask attentionMask)))) ∧
    (∀ (p : LayerParams) (rest : List LayerParams) (e : Emb) (mask : Seq),
      uniterEncoderForward (p :: rest) e mask =
        uniterEncoderForward rest (bertLayerBatch p e mask) mask) ∧
    (∀ (p : LayerParams) (hiddenStates : Seq) (maskRow : Vec) (h q i : ℕ),
      q < hiddenStates.length → i < hiddenStates.length → i < maskRow.length →
      ((scoresHead p hiddenStates maskRow h).getD q []).getD i 0 =
        ((rawScoresHead p hiddenStates h).getD q []).getD i 0 + maskRow.getD i 0) := by
  refine ⟨?_, rfl, fun p rest e mask => rfl, ?_⟩
  · unfold extendedAttentionMask
    rw [getD_map _ attentionMask b hb [] [],
      getD_map _ (attentionMask.getD b []) j hj 0 0]
  · intro p hiddenStates maskRow h q i hq hi him
    have hrawlen : (rawScoresHead p hiddenStates h).length = hiddenStates.length := by
      simp [rawScoresHead]
    have hrowlen : ((rawScoresHead p hiddenStates h).getD q []).length
        = hiddenStates.length := by
      unfold rawScoresHead
      rw [getD_map _ _ q (by simpa using hq) [] []]
      simp
    unfold scoresHead
    rw [getD_map _ _ q (by rw [hrawlen]; exact hq) [] [],
      getD_zipWith _ _ _ i (by rw [hrowlen]; exact hi) him 0 0 0]

/-- A trivial model instance (all tables empty), enough to instantiate
the mask computation of the forward pass. -/
def maskDemoModel : BertUModel :=
  ⟨0, 0, [], [], [], [], [], [], [], [], [], [], [], [], [], [], [], fun q => q⟩

/-- A trivial pooler instance. -/
def maskDemoPooler : PoolerParams := ⟨[], [], fun q => q⟩

theorem claim_C7_witness :
    ((extendedAttentionMask [[1, 0]]).getD 0 []).getD 1 0 =
      (1 - (([[(1 : ℚ), 0]] : Seq).getD 0 []).getD 1 0) * (-10000) :=
  (claim_C7_extended_mask maskDemoModel [] maskDemoPooler none none none none
    [[1, 0]] none none none 0 1 (by decide) (by decide)).1

theorem mapIdx_congr {α β : Type _} (f g : ℕ → α → β) (l : List α)
    (h : ∀ (i : ℕ) (hi : i < l.length), f i (l.get ⟨i, hi⟩) = g i (l.get ⟨i, hi⟩)) :
    l.mapIdx f = l.mapIdx g := by
  apply List.ext_getElem (by simp)
  intro i h1 h2
  rw [List.getElem_mapIdx, List.getElem_mapIdx]
  exact h i (by simpa using h1)

/-- C10: with `img_type_ids` absent, the image path defaults the type ids
to all ones over the region axis, and looks the modality marker up in the
text tower's `token_type_embeddings` table, so every region receives row
1 of that shared table — a genuine row whenever `type_vocab_size ≥ 2`. -/
theorem claim_C10_default_img_type (m : BertUModel) (imgFeat imgPosFeat : Emb)
    (h2 : 2 ≤ m.tokenTypeEmbeddings.length) :
    computeImgEmbeddings m imgFeat imgPosFeat none =
      imgFeat.mapIdx (fun b ex => uniterImageEmbForward m ex (imgPosFeat.getD b [])
        (List.replicate ex.length (m.tokenTypeEmbeddings.getD 1 []))) ∧
    defaultImgTypeIds imgFeat = imgFeat.map (fun ex => List.replicate ex.length 1) ∧
    ∃ hh : 1 < m.tokenTypeEmbeddings.length,
      m.tokenTypeEmbeddings.getD 1 [] = m.tokenTypeEmbeddings.get ⟨1, hh⟩ := by
  refine ⟨?_, rfl, ?_⟩
  · unfold computeImgEmbeddings
    simp only [Option.getD_none]
    apply mapIdx_congr
    intro b hb
    have hdef : (defaultImgTypeIds imgFeat).getD b [] =
        List.replicate (imgFeat.get ⟨b, hb⟩).length 1 := by
      unfold defaultImgTypeIds
      rw [getD_map _ imgFeat b hb [] [], List.getD_eq_getElem imgFeat [] hb]
      rfl
    rw [hdef, List.map_replicate]
  · have hh : 1 < m.tokenTypeEmbeddings.length := by omega
    refine ⟨hh, ?_⟩
    rw [List.getD_eq_getElem _ _ hh]
    simp

/-- A model whose token-type table has two rows, so that the default
image modality marker is its second row. -/
def typeDemoModel : BertUModel :=
  ⟨1, 4, [[0]], [[0]], [[2], [3]], [1], [0], [[1]], [0], [[1]], [0],
    [1], [0], [1], [0], [1], [0], fun q => q⟩

theorem claim_C10_witness :
    computeImgEmbeddings typeDemoModel [[[5]]] [[[7]]] none =
      List.mapIdx (fun b ex => uniterImageEmbForward typeDemoModel ex
        (List.getD [[[7]]] b [])
        (List.replicate ex.length (typeDemoModel.tokenTypeEmbeddings.getD 1 [])))
        [[[5]]] :=
  (claim_C10_default_img_type typeDemoModel [[[5]]] [[[7]]] (by decide)).1

end Vilio
